import Mathlib

/-!
Shallow embedding of the pgm-args command-line argument library
(data model, registry `add`, lookup, and the `parse` engine).

The embedding follows `src/args.hpp` (the 2018-2021 header-only
implementation).  Where the 2018-2024 generation (`src/unnamed/part_006`,
the current `args.ipp`) differs - namely in the distribution of saved
positional tokens over the declared params, which uses a reservation
count of the remaining mandatory params - a second distribution function
`distribute_2024` and entry point `parse_2024` embed that generation.
Exceptions are modelled with `Except` over an explicit error kind that
mirrors the C++ exception taxonomy.
-/

namespace pgm

/-- Error taxonomy: `invalid_definition`, `invalid_argument` and
`missing_argument` mirror the exception classes of `args.hpp`. -/
inductive perror where
  | invalid_definition (msg : String)
  | invalid_argument (msg : String)
  | missing_argument (msg : String)
deriving DecidableEq, Repr

/-- Parsed values for an option or positional parameter (`struct argval`):
a vector of strings. -/
structure argval where
  data_ : List String
deriving DecidableEq, Repr

def argval.count (v : argval) : Nat := v.data_.length

def argval.isEmptyVal (v : argval) : Bool := v.data_.isEmpty

def argval.values (v : argval) : List String := v.data_

/-- `value_or(def)`: `empty() ? def : value()` where `value()` is the first
accumulated string. -/
def argval.value_or (v : argval) (d : String) : String :=
  match v.data_ with
  | [] => d
  | x :: _ => x

/-- `argval::add`: push one parsed value at the back. -/
def argval.add (v : argval) (val : String) : argval := ⟨v.data_ ++ [val]⟩

/-- Spec bitmask (`enum spec`): req = 1, mul = 2, optval = 4, opt = 8. -/
abbrev spec := Nat

def req : spec := 1
def mul : spec := 2
def optval : spec := 4
def opt : spec := 8

/-- `operator|(spec, spec)`: bitwise or. -/
def spec_or (lhs rhs : spec) : spec := lhs ||| rhs

/-- Program option (`struct option`). -/
structure option where
  short_ : String
  long_ : String
  valname_ : String
  description_ : String
  req_ : Bool
  mul_ : Bool
  optval_ : Bool
  values_ : argval
deriving DecidableEq, Repr

/-- `option::from` / `make_option`: build an option decoding the spec
bitmask; the accumulated value list starts empty. -/
def make_option (short_ long_ valname : String) (spc : spec) (description : String) : option :=
  { short_ := short_
    long_ := long_
    valname_ := valname
    description_ := description
    req_ := (spc &&& req) != 0
    mul_ := (spc &&& mul) != 0
    optval_ := (spc &&& optval) != 0
    values_ := ⟨[]⟩ }

/-- Positional parameter (`struct param`). -/
structure param where
  name_ : String
  description_ : String
  opt_ : Bool
  mul_ : Bool
  values_ : argval
deriving DecidableEq, Repr

/-- `param::from` / `make_param`. -/
def make_param (name : String) (spc : spec) (description : String) : param :=
  { name_ := name
    description_ := description
    opt_ := (spc &&& opt) != 0
    mul_ := (spc &&& mul) != 0
    values_ := ⟨[]⟩ }

/-- Program argument (`struct arg`): variant of option or param. -/
inductive arg where
  | mk_option (o : option)
  | mk_param (p : param)
deriving DecidableEq, Repr

/-- Program arguments registry (`struct args`): ordered options and params. -/
structure args where
  options_ : List option
  params_ : List param
deriving DecidableEq, Repr

/-- `has_equal(options_, &option::short_, what)`. -/
def has_equal_short (os : List option) (what : String) : Bool :=
  os.any (fun el => el.short_ == what)

/-- `has_equal(options_, &option::long_, what)`. -/
def has_equal_long (os : List option) (what : String) : Bool :=
  os.any (fun el => el.long_ == what)

/-- `has_equal(params_, &param::name_, what)`. -/
def has_equal_name (ps : List param) (what : String) : Bool :=
  ps.any (fun el => el.name_ == what)

/-- `args::add` (args.hpp lines 316-354): duplicate checks for options
(short against shorts, long against longs, each only when non-empty) and
ordering checks for params (duplicate name, nothing after a multi-value
param, no non-optional after an optional one). -/
def add (a : args) : arg → Except perror args
  | .mk_option new_ =>
    if new_.short_.length != 0 && has_equal_short a.options_ new_.short_ then
      .error (.invalid_definition ("duplicate short option " ++ new_.short_))
    else if new_.long_.length != 0 && has_equal_long a.options_ new_.long_ then
      .error (.invalid_definition ("duplicate long option " ++ new_.long_))
    else .ok { a with options_ := a.options_ ++ [new_] }
  | .mk_param new_ =>
    if has_equal_name a.params_ new_.name_ then
      .error (.invalid_definition ("duplicate param " ++ new_.name_))
    else
      match a.params_.getLast? with
      | some last =>
        if last.mul_ then
          .error (.invalid_definition (new_.name_ ++ " after multi-value param"))
        else if last.opt_ && !new_.opt_ then
          .error (.invalid_definition ("non-optional " ++ new_.name_ ++ " after optional param"))
        else .ok { a with params_ := a.params_ ++ [new_] }
      | none => .ok { a with params_ := a.params_ ++ [new_] }

/-- `args::operator[]` (args.hpp lines 359-372): look up the value view by
short/long option name or param name; the empty name matches nothing. -/
def args.lookup (a : args) (name : String) : Except perror argval :=
  if name.length != 0 then
    match a.options_.find? (fun el => el.short_ == name || el.long_ == name) with
    | some el => .ok el.values_
    | none =>
      match a.params_.find? (fun el => el.name_ == name) with
      | some el => .ok el.values_
      | none => .error (.invalid_argument ("option or param " ++ name ++ " not defined"))
  else .error (.invalid_argument ("option or param " ++ name ++ " not defined"))

/-- `is_not_option(s)`: empty, exactly "-", or not starting with '-'. -/
def is_not_option (s : String) : Bool :=
  s.isEmpty || s == "-" || s.data.head? != some '-'

/-- Index of the first occurrence of a character in a char list. -/
def idx_of (c : Char) : List Char → Option Nat
  | [] => none
  | x :: xs => if x = c then some 0 else (idx_of c xs).map (· + 1)

/-- Splitting of an option token into name and optional inline value
(args.hpp lines 416-430): a long token `--n=v` splits at the first `=`
from position 2; a short token `-xv` has name `-x` and value `v` when
longer than two characters. -/
def split_option (s : String) : String × Option String :=
  match s.data with
  | '-' :: '-' :: rest =>
    match idx_of '=' rest with
    | some i => (String.mk ('-' :: '-' :: rest.take i), some (String.mk (rest.drop (i + 1))))
    | none => (s, none)
  | cs => (String.mk (cs.take 2), if cs.length > 2 then some (String.mk (cs.drop 2)) else none)

/-- `std::find_if` over options by short or long name. -/
def find_option (os : List option) (name : String) : Option option :=
  os.find? (fun el => el.short_ == name || el.long_ == name)

/-- In-place mutation through the iterator returned by `find_if`:
apply `f` to the first option whose short or long name equals `name`. -/
def update_option (os : List option) (name : String) (f : option → option) : List option :=
  match os with
  | [] => []
  | o :: rest =>
    if o.short_ == name || o.long_ == name then f o :: rest
    else o :: update_option rest name f

/-- Resolution of the value for a matched option (args.hpp lines 437-470):
the no-value branch (with short-option-group requeue), the optional-value
branch (lookahead for a non-option token) and the required-value branch
(consume next token unless missing or exactly "--").  Returns the resolved
value and the remaining queue. -/
def resolve_value (it : option) (name : String) (value : Option String)
    (queue : List String) : Except perror (String × List String) :=
  if it.valname_ == "" then
    match value with
    | some v =>
      if name.length == 2 then .ok ("", ("-" ++ v) :: queue)
      else .error (.invalid_argument ("option " ++ name ++ " doesn't take values"))
    | none => .ok ("", queue)
  else if it.optval_ then
    match value with
    | some v => .ok (v, queue)
    | none =>
      match queue with
      | next :: rest => if is_not_option next then .ok (next, rest) else .ok ("", next :: rest)
      | [] => .ok ("", [])
  else
    match value with
    | some v => .ok (v, queue)
    | none =>
      match queue with
      | next :: rest =>
        if next != "--" then .ok (next, rest)
        else .error (.missing_argument ("option " ++ name ++ " requires a value"))
      | [] => .error (.missing_argument ("option " ++ name ++ " requires a value"))

/-- The token-scanning loop of `args::parse` (args.hpp lines 401-477),
fuel-indexed (one unit of fuel per loop iteration; `none` means the fuel
ran out, which never happens from `parse`'s initial fuel).  State: the
options (mutated in place by the source), the `had_token` terminator flag
and the saved positional tokens. -/
def scan (fuel : Nat) (opts : List option) (had_token : Bool)
    (saved queue : List String) : Option (Except perror (List option × List String)) :=
  match queue with
  | [] => some (.ok (opts, saved))
  | arg :: rest =>
    match fuel with
    | 0 => none
    | fuel + 1 =>
      if had_token || is_not_option arg then
        scan fuel opts had_token (saved ++ [arg]) rest
      else if arg == "--" then
        scan fuel opts true saved rest
      else
        let nv := split_option arg
        match find_option opts nv.1 with
        | none => some (.error (.invalid_argument ("option " ++ nv.1 ++ " not defined")))
        | some it =>
          match resolve_value it nv.1 nv.2 rest with
          | .error e => some (.error e)
          | .ok (v, queue2) =>
            if it.values_.count != 0 && !it.mul_ then
              some (.error (.invalid_argument ("duplicate option " ++ nv.1)))
            else
              scan fuel (update_option opts nv.1 (fun o => { o with values_ := o.values_.add v }))
                had_token saved queue2

/-- The required-options check after the queue is exhausted
(args.hpp lines 479-485). -/
def check_required (opts : List option) : Except perror Unit :=
  match opts with
  | [] => .ok ()
  | el :: rest =>
    if el.req_ && el.values_.isEmptyVal then
      .error (.missing_argument ("option " ++
        (if el.short_.length != 0 && el.long_.length != 0 then el.short_ ++ "/" ++ el.long_
         else if el.short_.length != 0 then el.short_ else el.long_) ++ " is required"))
    else check_required rest

/-- Greedy distribution of saved positional tokens over the params
(args.hpp lines 488-496): each param in order takes one token when any
remain (a multi-value param takes all remaining), otherwise a non-optional
param raises `missing_argument`.  Returns the updated params and the
leftover tokens. -/
def distribute (ps : List param) (saved : List String) : Except perror (List param × List String) :=
  match ps, saved with
  | [], s => .ok ([], s)
  | el :: rest, [] =>
    if !el.opt_ then .error (.missing_argument ("param " ++ el.name_ ++ " is required"))
    else
      match distribute rest [] with
      | .error e => .error e
      | .ok (ps', s') => .ok (el :: ps', s')
  | el :: rest, s0 :: srest =>
    let taken_rem : List String × List String :=
      if el.mul_ then (s0 :: srest, []) else ([s0], srest)
    match distribute rest taken_rem.2 with
    | .error e => .error e
    | .ok (ps', s') => .ok ({ el with values_ := ⟨el.values_.data_ ++ taken_rem.1⟩ } :: ps', s')

/-- Full positional processing of args.hpp (lines 488-500): distribute,
then reject any leftover token as an extra param. -/
def process_params (ps : List param) (saved : List String) : Except perror (List param) :=
  match distribute ps saved with
  | .error e => .error e
  | .ok (ps', s') =>
    match s' with
    | [] => .ok ps'
    | x :: _ => .error (.invalid_argument ("extra param " ++ x))

/-- Fuel bound for the scan loop: the sum of token lengths plus one per
token (a short-option-group requeue replaces a token by a one-character
shorter one, so this measure strictly decreases each iteration). -/
def scan_fuel (queue : List String) : Nat :=
  queue.foldr (fun s n => s.data.length + 1 + n) 0

/-- `args::parse` of args.hpp (lines 393-501): seed the queue with
`argv[1..]`, run the token scan, check required options, then process the
saved positional tokens greedily. -/
def parse (a : args) (argv : List String) : Option (Except perror args) :=
  match scan (scan_fuel (argv.drop 1)) a.options_ false [] (argv.drop 1) with
  | none => none
  | some (.error e) => some (.error e)
  | some (.ok (opts, saved)) =>
    match check_required opts with
    | .error e => some (.error e)
    | .ok _ =>
      match process_params a.params_ saved with
      | .error e => some (.error e)
      | .ok ps => some (.ok { options_ := opts, params_ := ps })

/-- The do-while munch loop of the 2024 distribution
(`src/unnamed/part_006` line 327): keep taking saved tokens while at least
`k` remain, where `k` is the number of params from the current one to the
end. -/
def munch_loop (k : Nat) : List String → List String × List String
  | [] => ([], [])
  | s :: rest =>
    if rest.length + 1 ≥ k then
      let tr := munch_loop k rest
      (s :: tr.1, tr.2)
    else ([], s :: rest)

/-- Distribution of saved positional tokens in the 2024 generation
(`src/unnamed/part_006` lines 314-332): `req_n` counts the non-optional
params still to fill; an optional param is skipped when the saved tokens
are no more than that reservation. -/
def distribute_2024 (req_n : Nat) (ps : List param) (saved : List String) :
    Except perror (List param × List String) :=
  match ps with
  | [] => .ok ([], saved)
  | el :: rest =>
    if !el.opt_ then
      match saved with
      | [] => .error (.missing_argument ("param " ++ el.name_ ++ " is required"))
      | s :: srest =>
        let er : List String × List String :=
          if el.mul_ then munch_loop (rest.length + 1) srest else ([], srest)
        match distribute_2024 (req_n - 1) rest er.2 with
        | .error e => .error e
        | .ok (ps', fin) => .ok ({ el with values_ := ⟨el.values_.data_ ++ (s :: er.1)⟩ } :: ps', fin)
    else if saved.length ≤ req_n then
      match distribute_2024 req_n rest saved with
      | .error e => .error e
      | .ok (ps', fin) => .ok (el :: ps', fin)
    else
      match saved with
      | [] => .error (.missing_argument ("param " ++ el.name_ ++ " is required"))
      | s :: srest =>
        let er : List String × List String :=
          if el.mul_ then munch_loop (rest.length + 1) srest else ([], srest)
        match distribute_2024 req_n rest er.2 with
        | .error e => .error e
        | .ok (ps', fin) => .ok ({ el with values_ := ⟨el.values_.data_ ++ (s :: er.1)⟩ } :: ps', fin)

/-- Positional processing of the 2024 generation: reservation-based
distribution followed by the extra-param check
(`src/unnamed/part_006` lines 314-332). -/
def process_params_2024 (ps : List param) (saved : List String) : Except perror (List param) :=
  let req_n := ps.countP (fun el => !el.opt_)
  match distribute_2024 req_n ps saved with
  | .error e => .error e
  | .ok (ps', s') =>
    match s' with
    | [] => .ok ps'
    | x :: _ => .error (.invalid_argument ("extra param " ++ x))

/-- `args::parse` of the 2024 generation (`src/unnamed/part_006`
lines 220-333): identical token scan and required-option check, with the
reservation-based positional distribution. -/
def parse_2024 (a : args) (argv : List String) : Option (Except perror args) :=
  match scan (scan_fuel (argv.drop 1)) a.options_ false [] (argv.drop 1) with
  | none => none
  | some (.error e) => some (.error e)
  | some (.ok (opts, saved)) =>
    match check_required opts with
    | .error e => some (.error e)
    | .ok _ =>
      match process_params_2024 a.params_ saved with
      | .error e => some (.error e)
      | .ok ps => some (.ok { options_ := opts, params_ := ps })

/-- Registries reachable from the empty registry by successful `add` calls. -/
inductive reachable : args → Prop where
  | empty : reachable ⟨[], []⟩
  | step : ∀ (a : args) (x : arg) (a' : args),
      reachable a → add a x = .ok a' → reachable a'

/-- `o'` is `o` with zero or more values appended to its accumulated list
and every other field unchanged. -/
def option_extends (o' o : option) : Prop :=
  ∃ new_, o' = { o with values_ := ⟨o.values_.data_ ++ new_⟩ }

/-- `p'` is `p` with zero or more values appended to its accumulated list
and every other field unchanged. -/
def param_extends (p' p : param) : Prop :=
  ∃ new_, p' = { p with values_ := ⟨p.values_.data_ ++ new_⟩ }

/-! Concrete registries used by the claims. -/

/-- Five positional params, the second and fourth optional (the `params_0`
fixture of the test suite). -/
def reg5 : args :=
  { options_ := []
    params_ := [make_param "p1" 0 "", make_param "p2" opt "",
                make_param "p3" 0 "", make_param "p4" opt "",
                make_param "p5" 0 ""] }

/-- One option with long name `--chmod`, value name `CHMOD`, optional value. -/
def regChmod : args :=
  { options_ := [make_option "" "--chmod" "CHMOD" optval ""], params_ := [] }

/-- Three value-less short options `-a`, `-b`, `-c`. -/
def regABC : args :=
  { options_ := [make_option "-a" "" "" 0 "", make_option "-b" "" "" 0 "",
                 make_option "-c" "" "" 0 ""], params_ := [] }

/-- One repeatable positional param. -/
def regP : args := { options_ := [], params_ := [make_param "p" mul ""] }

/-- One short option `-p` with a required value. -/
def optP : option := make_option "-p" "" "N" 0 ""

def regReq : args := { options_ := [optP], params_ := [] }

/-- One required value-less option `-r`. -/
def optR : option := make_option "-r" "" "" req ""

def regR : args := { options_ := [optR], params_ := [] }

/-- The single option `-a` of `regABC`, for the accumulation witness. -/
def optA : option := make_option "-a" "" "" 0 ""

/-- A mandatory positional param, for reachability witnesses. -/
def paramQ : param := make_param "q" 0 ""

/-- A repeatable value-less option `-m`, for the accumulation witness. -/
def optM : option := make_option "-m" "" "" mul ""

end pgm

/-! ## Claim theorems -/

/-- Claim C10: for every registry, looking up the empty string raises the
lookup-time invalid-argument error; the empty name never matches any
option or param definition, even though option definitions lacking a short
or long name store that absent name as an empty string. -/
theorem C10_empty_lookup_fails (a : pgm.args) :
    a.lookup "" = .error (.invalid_argument "option or param  not defined") := rfl

/-- Claim C3: for three value-less short options `-a`, `-b`, `-c`, parsing
`["prog", "-abc"]` yields exactly the same accumulated presence (the same
values list per option) as parsing `["prog", "-a", "-b", "-c"]`; both
record one empty-string presence value per option. -/
theorem C3_grouping_equivalence :
    pgm.parse pgm.regABC ["prog", "-abc"] = pgm.parse pgm.regABC ["prog", "-a", "-b", "-c"] ∧
    (pgm.parse pgm.regABC ["prog", "-abc"]).map (Except.map (fun a =>
      a.options_.map (fun o => o.values_.data_))) = some (.ok [[""], [""], [""]]) :=
  ⟨rfl, rfl⟩

/-- Claim C2 counterexample: with the option `--chmod <CHMOD>` taking an
optional value, parsing `["prog", "--chmod"]` succeeds but the parse
records an empty-string presence value, so `value_or("0644")` returns `""`
and not `"0644"` as the claim states. -/
theorem C2_counterexample :
    (pgm.parse pgm.regChmod ["prog", "--chmod"]).map (Except.map (fun a =>
      (a.lookup "--chmod").map (fun v => v.value_or "0644"))) = some (.ok (.ok "")) ∧
    ("" : String) ≠ "0644" :=
  ⟨rfl, by decide⟩

/-- Claim C2 as amended: with the option `--chmod <CHMOD>` taking an
optional value, parsing `["prog", "--chmod"]` (no following token)
succeeds and records presence as an empty-string value, so the lookup
view's `value_or("0644")` returns `""` (the default applies only when no
value at all was accumulated). -/
theorem C2_amended_optional_value :
    (pgm.parse pgm.regChmod ["prog", "--chmod"]).map (Except.map (fun a =>
      (a.lookup "--chmod").map (fun v => v.value_or "0644"))) = some (.ok (.ok "")) ∧
    (pgm.parse pgm.regChmod ["prog", "--chmod"]).map (Except.map (fun a =>
      (a.lookup "--chmod").map pgm.argval.values)) = some (.ok (.ok [""])) :=
  ⟨rfl, rfl⟩

/-- Claim C1: with five positional params of which the second and fourth
are optional, parsing exactly the three mandatory tokens succeeds, binds
them to the three mandatory params and leaves both optional params with
`count() == 0`; parsing only two tokens raises `missing_argument`.
(Behaviour of the current, 2018-2024 generation of the parser.) -/
theorem C1_positional_completeness :
    (pgm.parse_2024 pgm.reg5 ["pgm", "p1", "p3", "p5"]).map (Except.map (fun a =>
      ((a.lookup "p1").map pgm.argval.values, (a.lookup "p2").map pgm.argval.count,
       (a.lookup "p3").map pgm.argval.values, (a.lookup "p4").map pgm.argval.count,
       (a.lookup "p5").map pgm.argval.values))) =
      some (.ok (.ok ["p1"], .ok 0, .ok ["p3"], .ok 0, .ok ["p5"])) ∧
    pgm.parse_2024 pgm.reg5 ["pgm", "p1", "p3"] =
      some (.error (.missing_argument "param p5 is required")) :=
  ⟨rfl, rfl⟩

/-- Claim C4: once the terminator `--` has been consumed (`had_token` set),
the scan loop classifies every remaining token as positional and never
matches it against option definitions; concretely, `["prog", "--", "-x"]`
with `-x` undefined and a repeatable positional param binds `-x` to that
param instead of raising an unrecognized-option error. -/
theorem C4_terminator_positional :
    (∀ (fuel : Nat) (opts : List pgm.option) (saved queue : List String),
      queue.length ≤ fuel →
      pgm.scan fuel opts true saved queue = some (.ok (opts, saved ++ queue))) ∧
    (pgm.parse pgm.regP ["prog", "--", "-x"]).map (Except.map (fun a =>
      a.params_.map (fun p => p.values_.data_))) = some (.ok [["-x"]]) := by
  constructor
  · intro fuel opts saved queue
    induction queue generalizing fuel saved with
    | nil => intro _; simp [pgm.scan]
    | cons arg rest ih =>
      intro h
      cases fuel with
      | zero => simp at h
      | succ f =>
        have hstep : pgm.scan (f + 1) opts true saved (arg :: rest) =
            pgm.scan f opts true (saved ++ [arg]) rest := rfl
        rw [hstep, ih f (saved ++ [arg]) (Nat.le_of_succ_le_succ h)]
        simp
  · rfl

/-- Witness for C4: the general part applied at a concrete state. -/
theorem C4_terminator_positional_witness :
    pgm.scan 1 [] true [] ["-x"] = some (.ok ([], ["-x"])) :=
  C4_terminator_positional.1 1 [] [] ["-x"] (by decide)

/-- Claim C5: for an option with a required value (value name configured,
value not optional) encountered with no inline value, the next queued
token is consumed as its value; if there is no next token, or the next
token is exactly `--`, the parse raises `missing_argument`. -/
theorem C5_required_value_branch (it : pgm.option) (name : String) (queue : List String)
    (hval : it.valname_ ≠ "") (hopt : it.optval_ = false) :
    (∀ next rest, queue = next :: rest → next ≠ "--" →
      pgm.resolve_value it name none queue = .ok (next, rest)) ∧
    (queue.head? = some "--" ∨ queue = [] →
      pgm.resolve_value it name none queue =
        .error (.missing_argument ("option " ++ name ++ " requires a value"))) ∧
    pgm.parse pgm.regReq ["prog", "-p"] =
      some (.error (.missing_argument "option -p requires a value")) ∧
    pgm.parse pgm.regReq ["prog", "-p", "--"] =
      some (.error (.missing_argument "option -p requires a value")) ∧
    (pgm.parse pgm.regReq ["prog", "-p", "8080"]).map (Except.map (fun a =>
      a.options_.map (fun o => o.values_.data_))) = some (.ok [["8080"]]) := by
  refine ⟨?_, ?_, rfl, rfl, rfl⟩
  · intro next rest hq hne
    subst hq
    simp [pgm.resolve_value, hval, hopt, hne]
  · intro hq
    rcases hq with hq | hq
    · cases queue with
      | nil => simp at hq
      | cons x xs =>
        simp only [List.head?_cons, Option.some_inj] at hq
        subst hq
        simp [pgm.resolve_value, hval, hopt]
    · subst hq
      simp [pgm.resolve_value, hval, hopt]

/-- Witness for C5: the required-value branch at `-p` with next token
`8080`, and with an exhausted queue. -/
theorem C5_required_value_branch_witness :
    pgm.resolve_value pgm.optP "-p" none ["8080"] = .ok ("8080", []) ∧
    pgm.resolve_value pgm.optP "-p" none [] =
      .error (.missing_argument "option -p requires a value") :=
  ⟨(C5_required_value_branch pgm.optP "-p" ["8080"] (by decide) rfl).1 "8080" [] rfl
    (by decide),
   (C5_required_value_branch pgm.optP "-p" [] (by decide) rfl).2.1 (Or.inr rfl)⟩

/-- The required-options check succeeds exactly when every required option
has at least one accumulated value. -/
theorem check_required_ok_iff (opts : List pgm.option) :
    pgm.check_required opts = .ok () ↔
      ∀ o ∈ opts, o.req_ = true → o.values_.data_ ≠ [] := by
  induction opts with
  | nil => simp [pgm.check_required]
  | cons el rest ih =>
    simp only [pgm.check_required]
    split
    · next hcond =>
      rw [Bool.and_eq_true] at hcond
      constructor
      · intro h; exact Except.noConfusion h
      · intro h
        have hempty : el.values_.data_ = [] := by
          have h2 := hcond.2
          simpa [pgm.argval.isEmptyVal, List.isEmpty_iff] using h2
        exact absurd hempty (h el (List.mem_cons_self _ _) hcond.1)
    · next hcond =>
      rw [ih]
      constructor
      · intro h o ho
        rcases List.mem_cons.mp ho with rfl | ho'
        · intro hreq hdata
          exact hcond (by simp [pgm.argval.isEmptyVal, hreq, hdata])
        · exact h o ho'
      · intro h o ho
        exact h o (List.mem_cons_of_mem _ ho)

/-- Claim C6: an option marked required raises `missing_argument` when
absent from the argv and succeeds when present once; in general, after the
token queue is exhausted `parse` verifies every required option has at
least one accumulated value (the check passes exactly when they all do,
and any successful parse leaves every required option non-empty). -/
theorem C6_required_option_enforcement :
    (∀ opts : List pgm.option, pgm.check_required opts = .ok () ↔
      ∀ o ∈ opts, o.req_ = true → o.values_.data_ ≠ []) ∧
    (∀ (a : pgm.args) (argv : List String) (a' : pgm.args),
      pgm.parse a argv = some (.ok a') →
      ∀ o ∈ a'.options_, o.req_ = true → o.values_.data_ ≠ []) ∧
    pgm.parse pgm.regR ["prog"] = some (.error (.missing_argument "option -r is required")) ∧
    (pgm.parse pgm.regR ["prog", "-r"]).map (Except.map (fun a =>
      a.options_.map (fun o => o.values_.data_))) = some (.ok [[""]]) := by
  refine ⟨check_required_ok_iff, ?_, rfl, rfl⟩
  intro a argv a' h
  simp only [pgm.parse] at h
  split at h
  · exact Option.noConfusion h
  · simp at h
  · next opts saved heq =>
    split at h
    · simp at h
    · next u hreq =>
      split at h
      · simp at h
      · next ps hpp =>
        simp only [Option.some.injEq, Except.ok.injEq] at h
        have ha' : a' = ⟨opts, ps⟩ := h.symm
        subst ha'
        intro o ho
        exact (check_required_ok_iff opts).mp (by cases u; exact hreq) o ho

/-- Witness for C6: the check applied to the empty registry, and the
successful parse of `regR` with one occurrence of `-r`. -/
theorem C6_required_option_enforcement_witness :
    pgm.check_required [] = .ok () ∧
    ({ pgm.optR with values_ := ⟨[""]⟩ } : pgm.option).values_.data_ ≠ [] :=
  ⟨(C6_required_option_enforcement.1 []).mpr (by simp),
   C6_required_option_enforcement.2.1 pgm.regR ["prog", "-r"]
     ⟨[{ pgm.optR with values_ := ⟨[""]⟩ }], []⟩ rfl _ (by simp) rfl⟩

/-- A string has length zero exactly when it is the empty string. -/
theorem string_length_zero_iff (s : String) : s.length = 0 ↔ s = "" := by
  constructor
  · intro h
    cases s with
    | mk d =>
      cases d with
      | nil => rfl
      | cons c cs => exact absurd h (by simp [String.length])
  · intro h; subst h; rfl

/-- The short-name collision condition of `add`, decoded. -/
theorem add_short_cond (a : pgm.args) (new_ : pgm.option) :
    (new_.short_.length != 0 && pgm.has_equal_short a.options_ new_.short_) = true ↔
      (new_.short_ ≠ "" ∧ pgm.has_equal_short a.options_ new_.short_ = true) := by
  rw [Bool.and_eq_true, bne_iff_ne]
  simp [Ne, string_length_zero_iff]

/-- The long-name collision condition of `add`, decoded. -/
theorem add_long_cond (a : pgm.args) (new_ : pgm.option) :
    (new_.long_.length != 0 && pgm.has_equal_long a.options_ new_.long_) = true ↔
      (new_.long_ ≠ "" ∧ pgm.has_equal_long a.options_ new_.long_ = true) := by
  rw [Bool.and_eq_true, bne_iff_ne]
  simp [Ne, string_length_zero_iff]

/-- Claim C7: adding an option raises `invalid_definition` exactly when its
present short name equals some existing option's short name, or its
present long name equals some existing option's long name (so a short name
matching an existing long name, or vice versa, is not a collision); when
no collision exists the option is appended to the options sequence and the
params are untouched. -/
theorem C7_option_add_collision :
    (∀ (a : pgm.args) (new_ : pgm.option),
      (∃ msg, pgm.add a (.mk_option new_) = .error (.invalid_definition msg)) ↔
        ((new_.short_ ≠ "" ∧ pgm.has_equal_short a.options_ new_.short_ = true) ∨
         (new_.long_ ≠ "" ∧ pgm.has_equal_long a.options_ new_.long_ = true))) ∧
    (∀ (a : pgm.args) (new_ : pgm.option),
      ¬((new_.short_ ≠ "" ∧ pgm.has_equal_short a.options_ new_.short_ = true) ∨
        (new_.long_ ≠ "" ∧ pgm.has_equal_long a.options_ new_.long_ = true)) →
      pgm.add a (.mk_option new_) = .ok { a with options_ := a.options_ ++ [new_] }) := by
  constructor
  · intro a new_
    constructor
    · rintro ⟨msg, hmsg⟩
      by_cases h1 : (new_.short_.length != 0 && pgm.has_equal_short a.options_ new_.short_) = true
      · exact Or.inl ((add_short_cond a new_).mp h1)
      · by_cases h2 : (new_.long_.length != 0 && pgm.has_equal_long a.options_ new_.long_) = true
        · exact Or.inr ((add_long_cond a new_).mp h2)
        · simp only [pgm.add, h1, h2, if_false, if_neg] at hmsg
          exact Except.noConfusion hmsg
    · intro h
      rcases h with ⟨hs, hh⟩ | ⟨hs, hh⟩
      · have h1 := (add_short_cond a new_).mpr ⟨hs, hh⟩
        exact ⟨"duplicate short option " ++ new_.short_, by simp [pgm.add, h1]⟩
      · have h2 := (add_long_cond a new_).mpr ⟨hs, hh⟩
        by_cases h1 : (new_.short_.length != 0 && pgm.has_equal_short a.options_ new_.short_) = true
        · exact ⟨"duplicate short option " ++ new_.short_, by simp [pgm.add, h1]⟩
        · exact ⟨"duplicate long option " ++ new_.long_, by simp [pgm.add, h1, h2]⟩
  · intro a new_ h
    have h1 : ¬(new_.short_.length != 0 && pgm.has_equal_short a.options_ new_.short_) = true :=
      fun hc => h (Or.inl ((add_short_cond a new_).mp hc))
    have h2 : ¬(new_.long_.length != 0 && pgm.has_equal_long a.options_ new_.long_) = true :=
      fun hc => h (Or.inr ((add_long_cond a new_).mp hc))
    simp [pgm.add, h1, h2]

/-- Witness for C7: appending `-a` to the empty registry. -/
theorem C7_option_add_collision_witness :
    pgm.add ⟨[], []⟩ (.mk_option pgm.optA) = .ok { options_ := [pgm.optA], params_ := [] } :=
  C7_option_add_collision.2 ⟨[], []⟩ pgm.optA (by decide)

/-- An element known to be the last of a pairwise-ordered list is either
any given member itself or related to it. -/
theorem pairwise_getLast {α : Type} {R : α → α → Prop} :
    ∀ (l : List α) (z : α), List.Pairwise R l → l.getLast? = some z →
      ∀ p ∈ l, p = z ∨ R p z := by
  intro l
  induction l with
  | nil => intro z _ _ p hp; exact absurd hp (List.not_mem_nil p)
  | cons x rest ih =>
    intro z hpw hz p hp
    rcases List.mem_cons.mp hp with rfl | hp'
    · cases rest with
      | nil => left; simpa using hz
      | cons y ys =>
        right
        rw [List.getLast?_cons_cons] at hz
        have hmem : z ∈ y :: ys := by
          have hzm : z ∈ (y :: ys).getLast? := by rw [hz]; rfl
          obtain ⟨hne, rfl⟩ := List.mem_getLast?_eq_getLast hzm
          exact List.getLast_mem hne
        exact (List.pairwise_cons.mp hpw).1 z hmem
    · cases rest with
      | nil => exact absurd hp' (List.not_mem_nil p)
      | cons y ys =>
        rw [List.getLast?_cons_cons] at hz
        exact ih z (List.pairwise_cons.mp hpw).2 hz p hp'

/-- A list in which every element with a successor is non-repeatable has
at most one repeatable element. -/
theorem pairwise_mul_countP (l : List pgm.param) :
    List.Pairwise (fun p _ => p.mul_ = false) l →
    l.countP (fun p => p.mul_) ≤ 1 := by
  induction l with
  | nil => intro _; simp
  | cons x rest ih =>
    intro hpw
    obtain ⟨hx, hrest⟩ := List.pairwise_cons.mp hpw
    cases rest with
    | nil => cases hxm : x.mul_ <;> simp [List.countP_cons, List.countP_nil, hxm]
    | cons y ys =>
      have hxm : x.mul_ = false := hx y (List.mem_cons_self y ys)
      rw [List.countP_cons]
      simp only [hxm, if_false, Bool.false_eq_true, Nat.add_zero]
      exact ih hrest

/-- A successful option `add` leaves the params untouched. -/
theorem add_option_ok_params (b : pgm.args) (o : pgm.option) (b' : pgm.args)
    (h : pgm.add b (.mk_option o) = .ok b') : b'.params_ = b.params_ := by
  simp only [pgm.add] at h
  split at h
  · exact Except.noConfusion h
  · split at h
    · exact Except.noConfusion h
    · have he := Except.ok.inj h
      rw [← he]

/-- Inversion of a successful param `add`: the params are appended and the
previous last param (when any) was non-repeatable and forces optionality. -/
theorem add_param_ok_inv (a : pgm.args) (new_ : pgm.param) (a' : pgm.args)
    (h : pgm.add a (.mk_param new_) = .ok a') :
    a'.params_ = a.params_ ++ [new_] ∧
    (∀ last, a.params_.getLast? = some last →
      last.mul_ = false ∧ (last.opt_ = true → new_.opt_ = true)) := by
  simp only [pgm.add] at h
  split at h
  · exact Except.noConfusion h
  · split at h
    · next last hlast =>
      split at h
      · exact Except.noConfusion h
      · split at h
        · exact Except.noConfusion h
        · next hmul hopt =>
          have he := Except.ok.inj h
          refine ⟨by rw [← he], ?_⟩
          intro l hl
          rw [hlast] at hl
          have hll : l = last := (Option.some.inj hl).symm
          subst hll
          constructor
          · exact Bool.not_eq_true _ ▸ (by simpa using hmul)
          · intro hlo
            by_contra hno
            exact hopt (by simp [hlo, Bool.not_eq_true] at hno ⊢; simp [hno])
    · next hnone =>
      have he := Except.ok.inj h
      refine ⟨by rw [← he], ?_⟩
      intro l hl
      rw [hnone] at hl
      exact Option.noConfusion hl

/-- Every registry reachable by successful `add` calls keeps the positional
ordering structure: optional params are only followed by optional params,
and every param with a successor is non-repeatable. -/
theorem reachable_params_invariant (a : pgm.args) (h : pgm.reachable a) :
    List.Pairwise (fun p q : pgm.param => p.opt_ = true → q.opt_ = true) a.params_ ∧
    List.Pairwise (fun p _ : pgm.param => p.mul_ = false) a.params_ := by
  induction h with
  | empty => exact ⟨List.Pairwise.nil, List.Pairwise.nil⟩
  | step b x b' _ hok ih =>
    cases x with
    | mk_option o =>
      rw [add_option_ok_params b o b' hok]
      exact ih
    | mk_param p =>
      obtain ⟨hp, hlast⟩ := add_param_ok_inv b p b' hok
      rw [hp]
      constructor
      · rw [List.pairwise_append]
        refine ⟨ih.1, List.pairwise_singleton _ _, ?_⟩
        intro q hq r hr hqopt
        rw [List.mem_singleton] at hr
        subst hr
        have hne : b.params_ ≠ [] := List.ne_nil_of_mem hq
        have hl := List.getLast?_eq_getLast_of_ne_nil hne
        rcases pairwise_getLast b.params_ _ ih.1 hl q hq with rfl | himp
        · exact (hlast _ hl).2 hqopt
        · exact (hlast _ hl).2 (himp hqopt)
      · rw [List.pairwise_append]
        refine ⟨ih.2, List.pairwise_singleton _ _, ?_⟩
        intro q hq r hr
        have hne : b.params_ ≠ [] := List.ne_nil_of_mem hq
        have hl := List.getLast?_eq_getLast_of_ne_nil hne
        rcases pairwise_getLast b.params_ _ ih.2 hl q hq with rfl | hmul
        · exact (hlast _ hl).1
        · exact hmul

/-- Claim C8: every registry reachable by successful `add` calls satisfies
the positional-ordering invariant (once a param is optional every later
param is optional, and at most one param is repeatable); `add` raises
`invalid_definition` on a duplicate param name, on any param appended
after a repeatable one, and on a non-optional param appended after an
optional one. -/
theorem C8_positional_invariant :
    (∀ a : pgm.args, pgm.reachable a →
      List.Pairwise (fun p q : pgm.param => p.opt_ = true → q.opt_ = true) a.params_ ∧
      a.params_.countP (fun p => p.mul_) ≤ 1) ∧
    (∀ (a : pgm.args) (new_ : pgm.param),
      (pgm.has_equal_name a.params_ new_.name_ = true ∨
       (∃ last, a.params_.getLast? = some last ∧ last.mul_ = true) ∨
       (∃ last, a.params_.getLast? = some last ∧ last.opt_ = true ∧ new_.opt_ = false)) →
      ∃ msg, pgm.add a (.mk_param new_) = .error (.invalid_definition msg)) := by
  constructor
  · intro a ha
    obtain ⟨h1, h2⟩ := reachable_params_invariant a ha
    exact ⟨h1, pairwise_mul_countP _ h2⟩
  · intro a new_ h
    by_cases hdup : pgm.has_equal_name a.params_ new_.name_ = true
    · exact ⟨"duplicate param " ++ new_.name_, by simp [pgm.add, hdup]⟩
    · rcases h with h | ⟨last, hl, hm⟩ | ⟨last, hl, ho, hn⟩
      · exact absurd h hdup
      · exact ⟨new_.name_ ++ " after multi-value param", by simp [pgm.add, hdup, hl, hm]⟩
      · by_cases hm : last.mul_ = true
        · exact ⟨new_.name_ ++ " after multi-value param", by simp [pgm.add, hdup, hl, hm]⟩
        · exact ⟨"non-optional " ++ new_.name_ ++ " after optional param",
            by simp [pgm.add, hdup, hl, hm, ho, hn]⟩

/-- Witness for C8: the invariant for a reachable one-param registry, and
the duplicate-param rejection. -/
theorem C8_positional_invariant_witness :
    (List.Pairwise (fun p q : pgm.param => p.opt_ = true → q.opt_ = true) [pgm.paramQ] ∧
      ([pgm.paramQ] : List pgm.param).countP (fun p => p.mul_) ≤ 1) ∧
    (∃ msg, pgm.add ⟨[], [pgm.paramQ]⟩ (.mk_param pgm.paramQ) =
      .error (.invalid_definition msg)) :=
  ⟨C8_positional_invariant.1 ⟨[], [pgm.paramQ]⟩
      (pgm.reachable.step ⟨[], []⟩ (.mk_param pgm.paramQ) ⟨[], [pgm.paramQ]⟩
        pgm.reachable.empty rfl),
   C8_positional_invariant.2 ⟨[], [pgm.paramQ]⟩ pgm.paramQ (Or.inl (by decide))⟩

/-- `option_extends` is reflexive. -/
theorem option_extends_refl (o : pgm.option) : pgm.option_extends o o :=
  ⟨[], by simp⟩

/-- `param_extends` is reflexive. -/
theorem param_extends_refl (p : pgm.param) : pgm.param_extends p p :=
  ⟨[], by simp⟩

/-- `option_extends` is transitive. -/
theorem option_extends_trans {o3 o2 o1 : pgm.option} :
    pgm.option_extends o3 o2 → pgm.option_extends o2 o1 → pgm.option_extends o3 o1 := by
  rintro ⟨n2, h2⟩ ⟨n1, h1⟩
  subst h1
  subst h2
  exact ⟨n1 ++ n2, by simp [List.append_assoc]⟩

/-- Pointwise transitivity chaining for `Forall₂`. -/
theorem forall₂_trans_of {α : Type} (R : α → α → Prop)
    (htrans : ∀ {x y z : α}, R x y → R y z → R x z) :
    ∀ {l3 l2 l1 : List α}, List.Forall₂ R l3 l2 → List.Forall₂ R l2 l1 →
      List.Forall₂ R l3 l1 := by
  intro l3 l2 l1 h32 h21
  induction h32 generalizing l1 with
  | nil => cases h21; exact List.Forall₂.nil
  | cons hxy _ ih =>
    cases h21 with
    | cons hyz hrest2 => exact List.Forall₂.cons (htrans hxy hyz) (ih hrest2)

/-- One in-place value append extends the options list pointwise. -/
theorem update_option_extends (os : List pgm.option) (name v : String) :
    List.Forall₂ pgm.option_extends
      (pgm.update_option os name (fun o => { o with values_ := o.values_.add v })) os := by
  induction os with
  | nil => exact List.Forall₂.nil
  | cons o rest ih =>
    simp only [pgm.update_option]
    split
    · exact List.Forall₂.cons ⟨[v], rfl⟩ (List.forall₂_same.mpr fun x _ => option_extends_refl x)
    · exact List.Forall₂.cons (option_extends_refl o) ih

/-- The token scan only appends to the accumulated value lists. -/
theorem scan_extends :
    ∀ (fuel : Nat) (opts : List pgm.option) (ht : Bool) (saved queue : List String)
      (opts' : List pgm.option) (saved' : List String),
      pgm.scan fuel opts ht saved queue = some (.ok (opts', saved')) →
      List.Forall₂ pgm.option_extends opts' opts := by
  intro fuel
  induction fuel with
  | zero =>
    intro opts ht saved queue opts' saved' h
    cases queue with
    | nil =>
      simp only [pgm.scan, Option.some.injEq, Except.ok.injEq, Prod.mk.injEq] at h
      rw [← h.1]
      exact List.forall₂_same.mpr fun x _ => option_extends_refl x
    | cons arg rest => exact Option.noConfusion h
  | succ f ih =>
    intro opts ht saved queue opts' saved' h
    cases queue with
    | nil =>
      simp only [pgm.scan, Option.some.injEq, Except.ok.injEq, Prod.mk.injEq] at h
      rw [← h.1]
      exact List.forall₂_same.mpr fun x _ => option_extends_refl x
    | cons arg rest =>
      simp only [pgm.scan] at h
      split at h
      · exact ih _ _ _ _ _ _ h
      · split at h
        · exact ih _ _ _ _ _ _ h
        · split at h
          · simp at h
          · split at h
            · simp at h
            · split at h
              · simp at h
              · exact forall₂_trans_of pgm.option_extends
                  (fun h1 h2 => option_extends_trans h1 h2) (ih _ _ _ _ _ _ h)
                  (update_option_extends opts _ _)

/-- The greedy positional distribution only appends values. -/
theorem distribute_extends :
    ∀ (ps : List pgm.param) (saved : List String) (r : List pgm.param × List String),
      pgm.distribute ps saved = .ok r → List.Forall₂ pgm.param_extends r.1 ps := by
  intro ps
  induction ps with
  | nil =>
    intro saved r h
    simp only [pgm.distribute] at h
    rw [← Except.ok.inj h]
    exact List.Forall₂.nil
  | cons el rest ih =>
    intro saved r h
    cases saved with
    | nil =>
      simp only [pgm.distribute] at h
      split at h
      · exact Except.noConfusion h
      · split at h
        · exact Except.noConfusion h
        · next ps' s' hrec =>
          rw [← Except.ok.inj h]
          exact List.Forall₂.cons (param_extends_refl el) (ih _ _ hrec)
    | cons s0 srest =>
      simp only [pgm.distribute] at h
      split at h
      · exact Except.noConfusion h
      · next ps' s' hrec =>
        rw [← Except.ok.inj h]
        exact List.Forall₂.cons ⟨_, rfl⟩ (ih _ _ hrec)

/-- Positional processing only appends values. -/
theorem process_params_extends (ps : List pgm.param) (saved : List String)
    (ps' : List pgm.param) (h : pgm.process_params ps saved = .ok ps') :
    List.Forall₂ pgm.param_extends ps' ps := by
  simp only [pgm.process_params] at h
  split at h
  · exact Except.noConfusion h
  · next ps2 s2 hd =>
    split at h
    · rw [← Except.ok.inj h]
      simpa using distribute_extends ps saved (ps2, []) hd
    · exact Except.noConfusion h

/-- Claim C9: `parse` never clears previously accumulated values - any
successful parse leaves every option and param equal to its previous state
with the newly bound values appended at the back, so a second parse on the
same registry accumulates additively. -/
theorem C9_parse_accumulates (a : pgm.args) (argv : List String) (a' : pgm.args)
    (h : pgm.parse a argv = some (.ok a')) :
    List.Forall₂ pgm.option_extends a'.options_ a.options_ ∧
    List.Forall₂ pgm.param_extends a'.params_ a.params_ := by
  simp only [pgm.parse] at h
  split at h
  · exact Option.noConfusion h
  · simp at h
  · next opts saved hscan =>
    split at h
    · simp at h
    · next u hreq =>
      split at h
      · simp at h
      · next ps hpp =>
        simp only [Option.some.injEq, Except.ok.injEq] at h
        have ha' : a' = ⟨opts, ps⟩ := h.symm
        subst ha'
        exact ⟨scan_extends _ _ _ _ _ _ _ hscan, process_params_extends _ _ _ hpp⟩

/-- Witness for C9: re-parsing a registry whose repeatable option `-m`
already holds a value appends the new presence value after it. -/
theorem C9_parse_accumulates_witness :
    List.Forall₂ pgm.option_extends
      [{ pgm.optM with values_ := ⟨["", ""]⟩ }] [{ pgm.optM with values_ := ⟨[""]⟩ }] ∧
    List.Forall₂ pgm.param_extends ([] : List pgm.param) [] :=
  C9_parse_accumulates ⟨[{ pgm.optM with values_ := ⟨[""]⟩ }], []⟩ ["prog", "-m"]
    ⟨[{ pgm.optM with values_ := ⟨["", ""]⟩ }], []⟩ rfl
